import Mathlib

/-!
Shallow embedding of the streaming technical-analysis primitives of the
ta-rs repository (src/indicators, src/generic_indicators).

Modelling conventions:
* machine `f64` values are modelled by exact rationals `ℚ`;
* the `-INFINITY` sentinel written by `Maximum::reset` is modelled by
  `⊥ : WithBot ℚ` (every finite value compares strictly above it, as in
  IEEE comparison of a finite double with `-inf`);
* a floating-point division whose denominator is zero (which yields `NaN`
  in the source, there being no guard) is modelled by an `Option` output
  that is `none` in exactly that case;
* the fixed-size buffers `[f64; N]` are modelled as total functions
  `ℕ → _` that the step functions read and write only at indices `< N`
  (for `EfficiencyRatio`, whose step slices the buffer, a `List ℚ` is
  used instead); an out-of-bounds access that would panic in Rust is
  modelled, where a claim depends on it, by an `Option`-valued checked
  step (`maxStepChecked`);
* a stream is fed one value at a time; where convenient a run is
  represented by the reversed list of its inputs (head = most recent
  push), so that "the last `N` pushed values" is `rs.take N`.
-/

namespace TaRs

/-- Cursor advance shared by every windowed primitive in the source:
`self.index = if self.index + 1 < N { self.index + 1 } else { 0 }`. -/
def advanceIdx (N i : ℕ) : ℕ := if i + 1 < N then i + 1 else 0

/-- Closed form of the contents of a rotating window after the pushes
`rs` (reversed: head = most recent).  Slot `j` holds `f v` where `v` is
the most recent push routed to slot `j`, and the initialisation value
`z` if no push was routed there yet.  Push number `p` (0-based,
chronological) is routed to slot `p % N`; in terms of the reversed list
the value in slot `j` is `rs.getD ((rs.length - 1 - j) % N) 0`. -/
def specDequeG {α : Type} (N : ℕ) (z : α) (f : ℚ → α) (rs : List ℚ) (j : ℕ) : α :=
  if j < min rs.length N then f (rs.getD ((rs.length - 1 - j) % N) 0) else z

/-! ## SimpleMovingAverage (src/indicators/simple_moving_average.rs) -/

/-- State of `SimpleMovingAverage<N>`: cursor `index`, saturating fill
counter `count`, running `sum`, and the window buffer `deque`. -/
@[ext] structure SmaState where
  index : ℕ
  count : ℕ
  sum : ℚ
  deque : ℕ → ℚ

/-- `SimpleMovingAverage::new`: zero state, zero-filled buffer. -/
def smaInit : SmaState := ⟨0, 0, 0, fun _ => 0⟩

/-- One call of `SimpleMovingAverage::next` (lines 81-97): read the
evicted slot, overwrite it, advance the cursor, bump the saturating
counter, update the running sum incrementally and return
`sum / count`. -/
def smaStep (N : ℕ) (s : SmaState) (x : ℚ) : SmaState × ℚ :=
  (⟨advanceIdx N s.index,
    if s.count < N then s.count + 1 else s.count,
    s.sum - s.deque s.index + x,
    fun i => if i = s.index then x else s.deque i⟩,
   (s.sum - s.deque s.index + x) /
     (((if s.count < N then s.count + 1 else s.count) : ℕ) : ℚ))

/-- `SimpleMovingAverage::reset` (lines 108-117): zero all scalar fields
and zero the `N` buffer slots (slots at or beyond `N` do not exist in
the source array and are left untouched by the loop). -/
def smaReset (N : ℕ) (s : SmaState) : SmaState :=
  ⟨0, 0, 0, fun i => if i < N then 0 else s.deque i⟩

/-- State after feeding the reversed stream `rs` (head = most recent
push) to a fresh `SimpleMovingAverage<N>`. -/
def smaRunRev (N : ℕ) : List ℚ → SmaState
  | [] => smaInit
  | x :: rs => (smaStep N (smaRunRev N rs) x).1

/-- The value returned by the most recent `next` of the reversed stream
`rs` (0 for the empty stream, which has no output). -/
def smaLastOut (N : ℕ) : List ℚ → ℚ
  | [] => 0
  | x :: rs => (smaStep N (smaRunRev N rs) x).2

/-- Output sequence of `SimpleMovingAverage<N>` started in state `s` on
the chronological input list. -/
def smaOutputs (N : ℕ) (s : SmaState) : List ℚ → List ℚ
  | [] => []
  | x :: xs => (smaStep N s x).2 :: smaOutputs N (smaStep N s x).1 xs

/-- Closed form of the full `SimpleMovingAverage<N>` state after the
reversed stream `rs`. -/
def smaSpec (N : ℕ) (rs : List ℚ) : SmaState :=
  ⟨rs.length % N, min rs.length N, (rs.take N).sum, specDequeG N 0 id rs⟩

/-! ## Maximum (src/generic_indicators/maximum.rs) -/

/-- State of `Maximum<N>`: tracked extremum slot `max_index`, cursor
`cur_index`, and the window buffer.  Buffer entries are `WithBot ℚ`
because `reset` fills the buffer with `-INFINITY`. -/
@[ext] structure MaxState where
  max_index : ℕ
  cur_index : ℕ
  deque : ℕ → WithBot ℚ

/-- `Maximum::new` (lines 36-42): both indices 0, buffer zero-filled. -/
def maxInit : MaxState := ⟨0, 0, fun _ => (0 : WithBot ℚ)⟩

/-- The fold inside `Maximum::find_max_index` (lines 44-56): running
`(max, index)` pair, starting from `(-INFINITY, 0)`, updated on a
strictly greater value. -/
def findMaxAux (d : ℕ → WithBot ℚ) (l : List ℕ) (a : WithBot ℚ × ℕ) : WithBot ℚ × ℕ :=
  l.foldl (fun a i => if d i > a.1 then (d i, i) else a) a

/-- `Maximum::find_max_index`: index of the first slot holding the
largest buffer value (0 if every slot is `-INFINITY`). -/
def findMaxIndex (N : ℕ) (d : ℕ → WithBot ℚ) : ℕ :=
  (findMaxAux d (List.range N) (⊥, 0)).2

/-- The buffer after `self.deque[self.cur_index] = input`. -/
def maxUpd (s : MaxState) (x : ℚ) : ℕ → WithBot ℚ :=
  fun i => if i = s.cur_index then (x : WithBot ℚ) else s.deque i

/-- The new `max_index` chosen by `Maximum::next` (lines 71-75): the
cursor if the input is strictly greater than the value at `max_index`
(read after the write), a full rescan if the slot just overwritten was
the tracked extremum, otherwise unchanged. -/
def maxSel (N : ℕ) (s : MaxState) (x : ℚ) : ℕ :=
  if (x : WithBot ℚ) > maxUpd s x s.max_index then s.cur_index
  else if s.max_index = s.cur_index then findMaxIndex N (maxUpd s x)
  else s.max_index

/-- One call of `Maximum::next` (lines 68-84): write, choose the new
`max_index`, advance the cursor, return `deque[max_index]`. -/
def maxStep (N : ℕ) (s : MaxState) (x : ℚ) : MaxState × WithBot ℚ :=
  (⟨maxSel N s x, advanceIdx N s.cur_index, maxUpd s x⟩,
   maxUpd s x (maxSel N s x))

/-- `Maximum::next` with the array accesses bounds-checked as in Rust:
`none` models the panic of `self.deque[i]` with `i` out of range (in
particular the first push on a `Maximum<0>`). -/
def maxStepChecked (N : ℕ) (s : MaxState) (x : ℚ) : Option (MaxState × WithBot ℚ) :=
  if s.cur_index < N ∧ s.max_index < N then some (maxStep N s x) else none

/-- `Maximum::reset` (lines 95-101): fill the `N` buffer slots with
`-INFINITY`; `max_index` and `cur_index` are NOT reset. -/
def maxReset (N : ℕ) (s : MaxState) : MaxState :=
  ⟨s.max_index, s.cur_index, fun i => if i < N then ⊥ else s.deque i⟩

/-- State after feeding the reversed stream `rs` to a fresh
`Maximum<N>`. -/
def maxRunRev (N : ℕ) : List ℚ → MaxState
  | [] => maxInit
  | x :: rs => (maxStep N (maxRunRev N rs) x).1

/-- The value returned by the most recent `next` of the reversed stream
`rs` (0 for the empty stream). -/
def maxLastOut (N : ℕ) : List ℚ → WithBot ℚ
  | [] => 0
  | x :: rs => (maxStep N (maxRunRev N rs) x).2

/-- Output sequence of `Maximum<N>` started in state `s` on the
chronological input list. -/
def maxOutputs (N : ℕ) (s : MaxState) : List ℚ → List (WithBot ℚ)
  | [] => []
  | x :: xs => (maxStep N s x).2 :: maxOutputs N (maxStep N s x).1 xs

/-- Invariant of the `Maximum` state: both indices in range and the
tracked slot dominates the whole buffer. -/
def MaxInv (N : ℕ) (s : MaxState) : Prop :=
  s.cur_index < N ∧ s.max_index < N ∧ ∀ j, j < N → s.deque j ≤ s.deque s.max_index

/-! ## ExponentialMovingAverage (src/generic_indicators/exponential_moving_average.rs) -/

/-- State of `ExponentialMovingAverage<N>`: smoothing constant `k`,
current value, and the `is_new` flag. -/
structure EmaState where
  k : ℚ
  current : ℚ
  is_new : Bool

/-- `ExponentialMovingAverage::new` (lines 63-71): `k = 2 / (N + 1)`,
current 0, flag set. -/
def emaInit (N : ℕ) : EmaState := ⟨2 / ((N : ℚ) + 1), 0, true⟩

/-- One call of `ExponentialMovingAverage::next` (lines 82-90): the
first push returns the input, every later push returns
`k * input + (1 - k) * current`. -/
def emaStep (s : EmaState) (x : ℚ) : EmaState × ℚ :=
  if s.is_new then (⟨s.k, x, false⟩, x)
  else (⟨s.k, s.k * x + (1 - s.k) * s.current, false⟩,
        s.k * x + (1 - s.k) * s.current)

/-- `ExponentialMovingAverage::reset` (lines 101-106). -/
def emaReset (s : EmaState) : EmaState := ⟨s.k, 0, true⟩

/-- Output sequence of the EMA from state `s`. -/
def emaOutputs (s : EmaState) : List ℚ → List ℚ
  | [] => []
  | x :: xs => (emaStep s x).2 :: emaOutputs (emaStep s x).1 xs

/-- Modelled from the spec (refinement side of the EMA claim): the
recurrence `out₀ = c`, `outᵢ₊₁ = k·xᵢ₊₁ + (1 − k)·outᵢ`, written as a
list function producing the outputs after a previous output `c`. -/
def emaSpecOutputs (k : ℚ) : ℚ → List ℚ → List ℚ
  | _, [] => []
  | c, y :: l => (k * y + (1 - k) * c) :: emaSpecOutputs k (k * y + (1 - k) * c) l

/-! ## RelativeStrengthIndex (src/indicators/relative_strength_index.rs) -/

/-- State of `RelativeStrengthIndex<N>`: the two internal EMAs, the
previous input and the `is_new` flag. -/
structure RsiState where
  upE : EmaState
  downE : EmaState
  prev_val : ℚ
  is_new : Bool

/-- `RelativeStrengthIndex::new` (lines 81-88). -/
def rsiInit (N : ℕ) : RsiState := ⟨emaInit N, emaInit N, 0, true⟩

/-- The `up` value of one `RelativeStrengthIndex::next` call (lines
101-115): the `0.1` seed on the first call, else the positive part of
the price change. -/
def rsiUp (s : RsiState) (x : ℚ) : ℚ :=
  if s.is_new then 1 / 10 else if s.prev_val < x then x - s.prev_val else 0

/-- The `down` value of one `RelativeStrengthIndex::next` call. -/
def rsiDown (s : RsiState) (x : ℚ) : ℚ :=
  if s.is_new then 1 / 10 else if s.prev_val < x then 0 else s.prev_val - x

/-- One call of `RelativeStrengthIndex::next` (lines 100-121): feed the
up/down values to the two EMAs and return
`100 * up_ema / (up_ema + down_ema)`. -/
def rsiStep (s : RsiState) (x : ℚ) : RsiState × ℚ :=
  (⟨(emaStep s.upE (rsiUp s x)).1, (emaStep s.downE (rsiDown s x)).1, x, false⟩,
   100 * (emaStep s.upE (rsiUp s x)).2 /
     ((emaStep s.upE (rsiUp s x)).2 + (emaStep s.downE (rsiDown s x)).2))

/-- `RelativeStrengthIndex::reset` (lines 132-139). -/
def rsiReset (s : RsiState) : RsiState :=
  ⟨emaReset s.upE, emaReset s.downE, 0, true⟩

/-! ## MoneyFlowIndex (src/generic_indicators/money_flow_index.rs) -/

/-- One observation, exposing the fields `MoneyFlowIndex` consumes. -/
structure Bar where
  high : ℚ
  low : ℚ
  close : ℚ
  volume : ℚ

/-- Well-formedness of an observation, as guaranteed by the crate's
`DataItem` builder (not under src/): prices nonnegative and ordered,
volume nonnegative. -/
def WellFormedBar (b : Bar) : Prop :=
  0 ≤ b.low ∧ b.low ≤ b.close ∧ b.close ≤ b.high ∧ 0 ≤ b.volume

instance (b : Bar) : Decidable (WellFormedBar b) := by
  unfold WellFormedBar; infer_instance

/-- `(close + high + low) / 3` (line 90). -/
def typicalPrice (b : Bar) : ℚ := (b.close + b.high + b.low) / 3

/-- State of `MoneyFlowIndex<N>`. -/
structure MfiState where
  index : ℕ
  count : ℕ
  prev_tp : ℚ
  pos : ℚ
  neg : ℚ
  deque : ℕ → ℚ

/-- `MoneyFlowIndex::new` (lines 68-77). -/
def mfiInit : MfiState := ⟨0, 0, 0, 0, 0, fun _ => 0⟩

/-- The eviction of lines 104-111: subtract the popped signed flow from
the matching total (`popped.is_sign_positive()` is `0 ≤ popped` for the
exact values stored here, `0.0` included). -/
def mfiEvict (s : MfiState) (idx : ℕ) : ℚ × ℚ :=
  if 0 ≤ s.deque idx then (s.pos - s.deque idx, s.neg) else (s.pos, s.neg + s.deque idx)

/-- The flow branch of lines 113-123: new `(pos, neg, stored slot)`
given the previous typical price, the current one, and the raw flow. -/
def mfiFlow (prev tp raw pos neg : ℚ) : ℚ × ℚ × ℚ :=
  if prev < tp then (pos + raw, neg, raw)
  else if tp < prev then (pos, neg + raw, -raw)
  else (pos, neg, 0)

/-- Assemble the post-tick state and the output of lines 126-128.  The
source computes `pos / (pos + neg) * 100.0` with no guard: a zero
denominator yields `NaN`, modelled by `none`. -/
def mfiFinish (idx cnt : ℕ) (tp : ℚ) (pns : ℚ × ℚ × ℚ) (d : ℕ → ℚ) :
    MfiState × Option ℚ :=
  (⟨idx, cnt, tp, pns.1, pns.2.1, fun i => if i = idx then pns.2.2 else d i⟩,
   if pns.1 + pns.2.1 = 0 then none else some (pns.1 / (pns.1 + pns.2.1) * 100))

/-- The non-first-tick path of `MoneyFlowIndex::next`: advance the
cursor, evict once the window is full (skip during warm-up), bump the
saturating counter, add the new signed flow, return the ratio. -/
def mfiStepGo (N : ℕ) (s : MfiState) (b : Bar) : MfiState × Option ℚ :=
  mfiFinish (advanceIdx N s.index)
    (if s.count < N then s.count + 1 else s.count)
    (typicalPrice b)
    (mfiFlow s.prev_tp (typicalPrice b) (typicalPrice b * b.volume)
      (if s.count < N then s.pos else (mfiEvict s (advanceIdx N s.index)).1)
      (if s.count < N then s.neg else (mfiEvict s (advanceIdx N s.index)).2))
    s.deque

/-- One call of `MoneyFlowIndex::next` (lines 89-129): advance the
cursor first; on the very first tick record the typical price and
return `50.0`; otherwise evict once the window is full, then add the
new signed flow and return the ratio. -/
def mfiStep (N : ℕ) (s : MfiState) (b : Bar) : MfiState × Option ℚ :=
  if s.count = 0 ∧ s.count < N then
    (⟨advanceIdx N s.index, 1, typicalPrice b, s.pos, s.neg, s.deque⟩, some 50)
  else mfiStepGo N s b

/-- `MoneyFlowIndex::reset` (lines 144-155). -/
def mfiReset (N : ℕ) (s : MfiState) : MfiState :=
  ⟨0, 0, 0, 0, 0, fun i => if i < N then 0 else s.deque i⟩

/-- State after the chronological bar list. -/
def mfiRun (N : ℕ) (s : MfiState) : List Bar → MfiState
  | [] => s
  | b :: l => mfiRun N (mfiStep N s b).1 l

/-- Output sequence of `MoneyFlowIndex<N>` from state `s`. -/
def mfiOutputs (N : ℕ) (s : MfiState) : List Bar → List (Option ℚ)
  | [] => []
  | b :: l => (mfiStep N s b).2 :: mfiOutputs N (mfiStep N s b).1 l

/-- Totals part of the `MoneyFlowIndex` invariant: the running totals
are exactly the positive and negative parts of the stored signed
flows. -/
def MfiSums (N : ℕ) (s : MfiState) : Prop :=
  s.pos = Finset.sum (Finset.range N) (fun i => max (s.deque i) 0)
  ∧ s.neg = Finset.sum (Finset.range N) (fun i => max (-(s.deque i)) 0)

/-- Shape part of the `MoneyFlowIndex` invariant: the cursor is in
range, the counter saturates at `N`, and during warm-up the cursor
equals the fill counter while the slots not yet written (slot 0,
slot 1 and every slot beyond the counter) still hold 0. -/
def MfiShape (N : ℕ) (s : MfiState) : Prop :=
  s.index < N ∧ s.count ≤ N
  ∧ (s.count < N → s.index = s.count
      ∧ ∀ j, (j ≤ 1 ∨ s.count < j) → s.deque j = 0)

/-- Invariant of the `MoneyFlowIndex` state. -/
def MfiInv (N : ℕ) (s : MfiState) : Prop := MfiSums N s ∧ MfiShape N s

/-- The output classification used by the money-flow claims: an output
is either the modelled `NaN` (`none`) or a number in `[0, 100]`. -/
def MfiOutOk (o : Option ℚ) : Prop :=
  o = none ∨ ∃ q, o = some q ∧ 0 ≤ q ∧ q ≤ 100

/-! ## EfficiencyRatio (src/generic_indicators/efficiency_ratio.rs) -/

/-- State of `EfficiencyRatio<N>`; the buffer is kept as a list of
length `N` because `next` slices it. -/
structure ErState where
  index : ℕ
  count : ℕ
  deque : List ℚ

/-- `EfficiencyRatio::new` (lines 41-47). -/
def erInit (N : ℕ) : ErState := ⟨0, 0, List.replicate N 0⟩

/-- The two volatility loops of lines 74-83: walk the values
accumulating `|previous − n|`, threading `previous`. -/
def volFold : ℚ → ℚ → List ℚ → ℚ
  | _, acc, [] => acc
  | p, acc, n :: l => volFold n (acc + |p - n|) l

/-- One call of `EfficiencyRatio::next` (lines 59-86): pick `first`
(the evicted value once full, `deque[0]` during warm-up, bumping the
counter), overwrite the cursor slot, advance the cursor, then walk
`deque[index..count]` followed by `deque[0..index]` and return
`|first − input| / volatility`. -/
def erStep (N : ℕ) (s : ErState) (x : ℚ) : ErState × ℚ :=
  (⟨advanceIdx N s.index,
    if N ≤ s.count then s.count else s.count + 1,
    s.deque.set s.index x⟩,
   (|(if N ≤ s.count then s.deque.getD s.index 0 else s.deque.getD 0 0) - x|) /
     volFold (if N ≤ s.count then s.deque.getD s.index 0 else s.deque.getD 0 0) 0
       ((((s.deque.set s.index x).drop (advanceIdx N s.index)).take
           ((if N ≤ s.count then s.count else s.count + 1) - advanceIdx N s.index)) ++
         ((s.deque.set s.index x).take (advanceIdx N s.index))))

/-- Output sequence of `EfficiencyRatio<N>` from state `s`. -/
def erOutputs (N : ℕ) (s : ErState) : List ℚ → List ℚ
  | [] => []
  | x :: xs => (erStep N s x).2 :: erOutputs N (erStep N s x).1 xs

/-! ## Arithmetic helpers for the cursor rotation -/

theorem mod_succ_eq (k N : ℕ) (hN : 1 ≤ N) :
    (k + 1) % N = if k % N + 1 < N then k % N + 1 else 0 := by
  have hlt : k % N < N := Nat.mod_lt _ (by omega)
  have hd := Nat.div_add_mod k N
  by_cases h : k % N + 1 < N
  · rw [if_pos h]
    conv_lhs => rw [← hd]
    rw [Nat.add_assoc, Nat.mul_add_mod, Nat.mod_eq_of_lt h]
  · rw [if_neg h]
    have he : k % N + 1 = N := by omega
    conv_lhs => rw [← hd]
    rw [Nat.add_assoc, Nat.mul_add_mod, he, Nat.mod_self]

theorem advanceIdx_mod (N k : ℕ) (hN : 1 ≤ N) :
    advanceIdx N (k % N) = (k + 1) % N := by
  rw [mod_succ_eq k N hN]; rfl

theorem advanceIdx_lt (N i : ℕ) (hN : 1 ≤ N) : advanceIdx N i < N := by
  unfold advanceIdx; split <;> omega

theorem self_sub_mod_eq (k N : ℕ) : k - k % N = N * (k / N) :=
  Nat.sub_eq_of_eq_add (Nat.div_add_mod k N).symm

theorem mod_pred_eq (a N : ℕ) (h : a % N ≠ 0) : (a - 1) % N = a % N - 1 := by
  rcases Nat.eq_zero_or_pos N with h0 | h0
  · subst h0; simp [Nat.mod_zero]
  · have hr : 1 ≤ a % N := Nat.one_le_iff_ne_zero.mpr h
    have hlt : a % N < N := Nat.mod_lt _ h0
    have hd := Nat.div_add_mod a N
    conv_lhs => rw [← hd]
    rw [Nat.add_sub_assoc hr, Nat.mul_add_mod, Nat.mod_eq_of_lt (by omega)]

theorem full_evict_mod (k N : ℕ) (hN : 1 ≤ N) (h : N ≤ k) :
    (k - 1 - k % N) % N = N - 1 := by
  have hd := Nat.div_add_mod k N
  have hq : 1 ≤ k / N := (Nat.one_le_div_iff (by omega)).mpr h
  have hlt : k % N < N := Nat.mod_lt _ (by omega)
  obtain ⟨q, hq1⟩ : ∃ q, k / N = q + 1 := ⟨k / N - 1, by omega⟩
  rw [hq1] at hd
  have hms : N * (q + 1) = N * q + N := Nat.mul_succ N q
  have h2 : k - 1 - k % N = N * q + (N - 1) := by omega
  rw [h2, Nat.mul_add_mod, Nat.mod_eq_of_lt (by omega)]

theorem sub_mod_ne_zero (k j N : ℕ) (hjN : j < N) (hjk : j ≤ k) (hne : j ≠ k % N) :
    (k - j) % N ≠ 0 := by
  intro h0
  have hj : j % N = j := Nat.mod_eq_of_lt hjN
  have h1 : j + (k - j) = k := by omega
  have h2 := Nat.add_mod j (k - j) N
  rw [h1, h0, Nat.add_zero, hj, hj] at h2
  exact hne h2.symm

theorem live_slot_mod (k i N : ℕ) (hik : i < k) (hiN : i < N) :
    (k - 1 - (k - 1 - i) % N) % N = i := by
  have hble : (k - 1 - i) % N ≤ k - 1 - i := Nat.mod_le _ _
  have h3 : k - 1 - (k - 1 - i) % N = i + ((k - 1 - i) - (k - 1 - i) % N) := by omega
  rw [h3, self_sub_mod_eq, Nat.add_mul_mod_self_left, Nat.mod_eq_of_lt hiN]

/-! ## Window-content lemmas -/

theorem specDequeG_cons {α : Type} (N : ℕ) (z : α) (f : ℚ → α) (hN : 1 ≤ N)
    (x : ℚ) (rs : List ℚ) (j : ℕ) :
    specDequeG N z f (x :: rs) j =
      if j = rs.length % N then f x else specDequeG N z f rs j := by
  have hmlt : rs.length % N < N := Nat.mod_lt _ (by omega)
  have hmle : rs.length % N ≤ rs.length := Nat.mod_le _ _
  simp only [specDequeG, List.length_cons, Nat.add_sub_cancel]
  by_cases hj : j = rs.length % N
  · subst hj
    rw [if_pos rfl, if_pos (by omega)]
    have hidx : (rs.length - rs.length % N) % N = 0 := by
      rw [self_sub_mod_eq, Nat.mul_mod_right]
    rw [hidx, List.getD_cons_zero]
  · rw [if_neg hj]
    by_cases hlt : j < min rs.length N
    · rw [if_pos (by omega), if_pos hlt]
      have hne0 : (rs.length - j) % N ≠ 0 :=
        sub_mod_ne_zero rs.length j N (by omega) (by omega) hj
      obtain ⟨m, hm⟩ : ∃ m, (rs.length - j) % N = m + 1 :=
        ⟨(rs.length - j) % N - 1, by omega⟩
      have hpred : (rs.length - 1 - j) % N = m := by
        have h1 : rs.length - 1 - j = (rs.length - j) - 1 := by omega
        rw [h1, mod_pred_eq _ _ hne0, hm, Nat.add_sub_cancel]
      rw [hm, hpred, List.getD_cons_succ]
    · have h2 : ¬ (j < min (rs.length + 1) N) := by
        intro h2
        have hjk : j = rs.length := by omega
        apply hj
        rw [hjk, Nat.mod_eq_of_lt (by omega)]
      rw [if_neg hlt, if_neg h2]

theorem specDequeG_evict_full {α : Type} (N : ℕ) (z : α) (f : ℚ → α) (hN : 1 ≤ N)
    (rs : List ℚ) (h : N ≤ rs.length) :
    specDequeG N z f rs (rs.length % N) = f (rs.getD (N - 1) 0) := by
  have hmlt : rs.length % N < N := Nat.mod_lt _ (by omega)
  unfold specDequeG
  rw [if_pos (by omega), full_evict_mod _ _ hN h]

theorem specDequeG_evict_warm {α : Type} (N : ℕ) (z : α) (f : ℚ → α)
    (rs : List ℚ) (h : rs.length < N) :
    specDequeG N z f rs (rs.length % N) = z := by
  have hme : rs.length % N = rs.length := Nat.mod_eq_of_lt h
  unfold specDequeG
  rw [hme, if_neg (by omega)]

theorem specDequeG_live {α : Type} (N : ℕ) (z : α) (f : ℚ → α) (hN : 1 ≤ N)
    (rs : List ℚ) (i : ℕ) (hi : i < min rs.length N) :
    specDequeG N z f rs ((rs.length - 1 - i) % N) = f (rs.getD i 0) := by
  have hik : i < rs.length := by omega
  have hiN : i < N := by omega
  have hjlt : (rs.length - 1 - i) % N < min rs.length N := by
    rcases Nat.lt_or_ge rs.length N with hc | hc
    · have he : (rs.length - 1 - i) % N = rs.length - 1 - i :=
        Nat.mod_eq_of_lt (by omega)
      omega
    · have := Nat.mod_lt (rs.length - 1 - i) (show 0 < N by omega)
      omega
  unfold specDequeG
  rw [if_pos hjlt, live_slot_mod _ _ _ hik hiN]

theorem sum_take_getD (l : List ℚ) (n : ℕ) (h : n < l.length) :
    (l.take (n + 1)).sum = (l.take n).sum + l.getD n 0 := by
  induction l generalizing n with
  | nil => simp at h
  | cons a l ih =>
      cases n with
      | zero => simp
      | succ n =>
          simp only [List.take_succ_cons, List.sum_cons, List.getD_cons_succ]
          rw [ih n (by simpa using h)]
          ring

/-! ## SimpleMovingAverage: state characterisation and C1 -/

theorem smaRunRev_spec (N : ℕ) (hN : 1 ≤ N) (rs : List ℚ) :
    smaRunRev N rs = smaSpec N rs := by
  induction rs with
  | nil =>
      unfold smaRunRev smaSpec smaInit
      ext j <;> simp [specDequeG]
  | cons x rs ih =>
      have hmlt : rs.length % N < N := Nat.mod_lt _ (by omega)
      show (smaStep N (smaRunRev N rs) x).1 = _
      rw [ih]
      unfold smaStep smaSpec
      simp only [List.length_cons]
      ext j
      · exact advanceIdx_mod N rs.length hN
      · simp only []
        split <;> omega
      · simp only [Nat.add_sub_cancel]
        rcases Nat.lt_or_ge rs.length N with hc | hc
        · rw [specDequeG_evict_warm N 0 id rs hc]
          obtain ⟨M, hM⟩ : ∃ M, N = M + 1 := ⟨N - 1, by omega⟩
          subst hM
          rw [List.take_succ_cons, List.sum_cons,
            List.take_of_length_le (by omega), List.take_of_length_le (by omega)]
          ring
        · rw [specDequeG_evict_full N 0 id hN rs hc]
          obtain ⟨M, hM⟩ : ∃ M, N = M + 1 := ⟨N - 1, by omega⟩
          subst hM
          simp only [Nat.add_sub_cancel, Nat.add_sub_cancel_left, id_eq]
          rw [List.take_succ_cons, List.sum_cons, sum_take_getD rs M (by omega)]
          ring
      · dsimp only
        rw [specDequeG_cons N 0 id hN x rs j]
        simp only [id_eq]

/-- C1: for every window size `N ≥ 1` and every stream of length `≥ N`
(given here reversed, head = most recent push), the value returned by
`SimpleMovingAverage::next` after the last push is the arithmetic mean
of exactly the last `N` pushed values. -/
theorem sma_last_output_is_mean (N : ℕ) (rs : List ℚ) (hN : 1 ≤ N)
    (hlen : N ≤ rs.length) :
    smaLastOut N rs = (rs.take N).sum / (N : ℚ) := by
  cases rs with
  | nil => simp at hlen; omega
  | cons x rs =>
      simp only [List.length_cons] at hlen
      simp only [smaLastOut]
      have hout : (smaStep N (smaRunRev N rs) x).2
          = ((smaStep N (smaRunRev N rs) x).1.sum)
            / (((smaStep N (smaRunRev N rs) x).1.count : ℕ) : ℚ) := rfl
      have hrun : (smaStep N (smaRunRev N rs) x).1 = smaRunRev N (x :: rs) := rfl
      rw [hout, hrun, smaRunRev_spec N hN (x :: rs)]
      show (((x :: rs).take N).sum) / (((min (x :: rs).length N : ℕ)) : ℚ)
          = ((x :: rs).take N).sum / (N : ℚ)
      have hminN : min (x :: rs).length N = N := by
        simp only [List.length_cons]; omega
      rw [hminN]

/-- Witness for C1 at `N = 2`, stream `100, 3, 5` (reversed `[5,3,100]`):
the last output is `(5 + 3) / 2`. -/
theorem sma_last_output_is_mean_w :
    smaLastOut 2 [5, 3, 100] = (([5, 3, 100] : List ℚ).take 2).sum / (2 : ℚ) :=
  sma_last_output_is_mean 2 [5, 3, 100] (by omega) (by simp)


/-! ## Maximum: find_max_index, invariant, characterisation -/

theorem findMaxAux_spec (d : ℕ → WithBot ℚ) (n : ℕ) :
    (∀ i, i < n → d i ≤ (findMaxAux d (List.range n) (⊥, 0)).1)
    ∧ (((findMaxAux d (List.range n) (⊥, 0)).1 = ⊥
          ∧ (findMaxAux d (List.range n) (⊥, 0)).2 = 0)
       ∨ ((findMaxAux d (List.range n) (⊥, 0)).2 < n
          ∧ d (findMaxAux d (List.range n) (⊥, 0)).2
              = (findMaxAux d (List.range n) (⊥, 0)).1
          ∧ ∀ j, j < (findMaxAux d (List.range n) (⊥, 0)).2 →
              d j < (findMaxAux d (List.range n) (⊥, 0)).1)) := by
  induction n with
  | zero =>
      constructor
      · intro i hi; omega
      · left; constructor <;> rfl
  | succ n ih =>
      have hstep : findMaxAux d (List.range (n + 1)) (⊥, 0)
          = (if d n > (findMaxAux d (List.range n) (⊥, 0)).1
             then (d n, n) else findMaxAux d (List.range n) (⊥, 0)) := by
        rw [List.range_succ]
        unfold findMaxAux
        rw [List.foldl_append]
        simp
      rw [hstep]
      by_cases h : d n > (findMaxAux d (List.range n) (⊥, 0)).1
      · rw [if_pos h]
        constructor
        · intro i hi
          rcases Nat.lt_or_ge i n with hin | hin
          · exact le_of_lt (lt_of_le_of_lt (ih.1 i hin) h)
          · have hie : i = n := by omega
            subst hie; exact le_refl _
        · right
          refine ⟨by omega, rfl, ?_⟩
          intro j hj
          exact lt_of_le_of_lt (ih.1 j hj) h
      · rw [if_neg h]
        constructor
        · intro i hi
          rcases Nat.lt_or_ge i n with hin | hin
          · exact ih.1 i hin
          · have hie : i = n := by omega
            subst hie
            exact le_of_not_lt h
        · rcases ih.2 with ⟨hb, hz⟩ | ⟨hlt, heq, hfirst⟩
          · left; exact ⟨hb, hz⟩
          · right; exact ⟨by omega, heq, hfirst⟩

theorem findMaxIndex_lt (N : ℕ) (d : ℕ → WithBot ℚ) (hN : 0 < N) :
    findMaxIndex N d < N := by
  show (findMaxAux d (List.range N) (⊥, 0)).2 < N
  rcases (findMaxAux_spec d N).2 with ⟨_, hz⟩ | ⟨hlt, _, _⟩
  · rw [hz]; exact hN
  · exact hlt

theorem findMaxIndex_le (N : ℕ) (d : ℕ → WithBot ℚ) (j : ℕ) (hj : j < N) :
    d j ≤ d (findMaxIndex N d) := by
  obtain ⟨h1, h2⟩ := findMaxAux_spec d N
  rcases h2 with ⟨hb, hz⟩ | ⟨_, heq, _⟩
  · have hle := h1 j hj
    rw [hb] at hle
    have hdj : d j = ⊥ := le_bot_iff.mp hle
    rw [hdj]; exact bot_le
  · show d j ≤ d (findMaxAux d (List.range N) (⊥, 0)).2
    rw [heq]
    exact h1 j hj

theorem findMaxIndex_first (N : ℕ) (d : ℕ → WithBot ℚ) (j : ℕ)
    (hj : j < findMaxIndex N d) : d j < d (findMaxIndex N d) := by
  obtain ⟨h1, h2⟩ := findMaxAux_spec d N
  rcases h2 with ⟨hb, hz⟩ | ⟨_, heq, hfirst⟩
  · exfalso
    have hj2 : j < (findMaxAux d (List.range N) (⊥, 0)).2 := hj
    rw [hz] at hj2
    omega
  · show d j < d (findMaxAux d (List.range N) (⊥, 0)).2
    rw [heq]
    exact hfirst j hj

theorem maxStep_inv (N : ℕ) (hN : 1 ≤ N) (s : MaxState) (x : ℚ)
    (h : MaxInv N s) : MaxInv N (maxStep N s x).1 := by
  obtain ⟨hcur, hmax, hdom⟩ := h
  have hc1 : advanceIdx N s.cur_index < N := advanceIdx_lt N _ hN
  by_cases hgt : (x : WithBot ℚ) > maxUpd s x s.max_index
  · have hsel : maxSel N s x = s.cur_index := by
      unfold maxSel; rw [if_pos hgt]
    refine ⟨hc1, ?_, ?_⟩
    · show maxSel N s x < N; rw [hsel]; exact hcur
    · intro j hj
      show maxUpd s x j ≤ maxUpd s x (maxSel N s x)
      rw [hsel]
      have hupd : maxUpd s x s.cur_index = (x : WithBot ℚ) := by
        unfold maxUpd; rw [if_pos rfl]
      rw [hupd]
      unfold maxUpd
      by_cases hje : j = s.cur_index
      · rw [if_pos hje]
      · rw [if_neg hje]
        by_cases hmc : s.max_index = s.cur_index
        · exfalso
          have hxx : maxUpd s x s.max_index = (x : WithBot ℚ) := by
            unfold maxUpd; rw [if_pos hmc]
          rw [hxx] at hgt
          exact lt_irrefl _ hgt
        · have hmu : maxUpd s x s.max_index = s.deque s.max_index := by
            unfold maxUpd; rw [if_neg hmc]
          rw [hmu] at hgt
          exact le_of_lt (lt_of_le_of_lt (hdom j hj) hgt)
  · by_cases hmc : s.max_index = s.cur_index
    · have hsel : maxSel N s x = findMaxIndex N (maxUpd s x) := by
        unfold maxSel; rw [if_neg hgt, if_pos hmc]
      refine ⟨hc1, ?_, ?_⟩
      · show maxSel N s x < N; rw [hsel]
        exact findMaxIndex_lt N _ (by omega)
      · intro j hj
        show maxUpd s x j ≤ maxUpd s x (maxSel N s x)
        rw [hsel]
        exact findMaxIndex_le N _ j hj
    · have hsel : maxSel N s x = s.max_index := by
        unfold maxSel; rw [if_neg hgt, if_neg hmc]
      have hmu : maxUpd s x s.max_index = s.deque s.max_index := by
        unfold maxUpd; rw [if_neg hmc]
      refine ⟨hc1, ?_, ?_⟩
      · show maxSel N s x < N; rw [hsel]; exact hmax
      · intro j hj
        show maxUpd s x j ≤ maxUpd s x (maxSel N s x)
        rw [hsel, hmu]
        unfold maxUpd
        by_cases hje : j = s.cur_index
        · rw [if_pos hje]
          have hxle := le_of_not_lt hgt
          rwa [hmu] at hxle
        · rw [if_neg hje]
          exact hdom j hj

theorem maxRunRev_inv (N : ℕ) (hN : 1 ≤ N) (rs : List ℚ) :
    MaxInv N (maxRunRev N rs) := by
  induction rs with
  | nil =>
      refine ⟨?_, ?_, ?_⟩
      · show (0 : ℕ) < N; omega
      · show (0 : ℕ) < N; omega
      · intro j hj; exact le_refl _
  | cons x rs ih => exact maxStep_inv N hN _ x ih

theorem maxRunRev_char (N : ℕ) (hN : 1 ≤ N) (rs : List ℚ) :
    (maxRunRev N rs).cur_index = rs.length % N
    ∧ ∀ j, (maxRunRev N rs).deque j
        = specDequeG N (0 : WithBot ℚ) (fun q => (q : WithBot ℚ)) rs j := by
  induction rs with
  | nil =>
      constructor
      · simp [maxRunRev, maxInit]
      · intro j; simp [maxRunRev, maxInit, specDequeG]
  | cons x rs ih =>
      obtain ⟨hcur, hdeq⟩ := ih
      constructor
      · show advanceIdx N (maxRunRev N rs).cur_index = (x :: rs).length % N
        rw [hcur, List.length_cons]
        exact advanceIdx_mod N rs.length hN
      · intro j
        show maxUpd (maxRunRev N rs) x j = _
        rw [specDequeG_cons N _ _ hN x rs j]
        unfold maxUpd
        rw [hcur]
        by_cases hje : j = rs.length % N
        · rw [if_pos hje, if_pos hje]
        · rw [if_neg hje, if_neg hje]
          exact hdeq j

/-- C5: for the windowed extremum tracker `Maximum<N>` (`N ≥ 1`), at
every tick of every stream (`rs` is the reversed stream, so the live
values are `rs.getD i 0` for `i < min rs.length N`), the returned
output is `≥` every live value; and once the window is full the output
IS one of the live values, hence the true maximum of the window (in
particular the rescan after an eviction of the extremum recovers it). -/
theorem max_output_dominates_live (N : ℕ) (rs : List ℚ) (hN : 1 ≤ N) :
    (∀ i, i < min rs.length N →
        ((rs.getD i 0 : ℚ) : WithBot ℚ) ≤ maxLastOut N rs)
    ∧ (N ≤ rs.length →
        ∃ i, i < N ∧ maxLastOut N rs = ((rs.getD i 0 : ℚ) : WithBot ℚ)) := by
  cases rs with
  | nil =>
      constructor
      · intro i hi; simp at hi
      · intro hl; simp at hl; omega
  | cons x rs =>
      have hout : maxLastOut N (x :: rs)
          = (maxRunRev N (x :: rs)).deque ((maxRunRev N (x :: rs)).max_index) := rfl
      obtain ⟨hcur, hdeq⟩ := maxRunRev_char N hN (x :: rs)
      obtain ⟨hc, hm, hdom⟩ := maxRunRev_inv N hN (x :: rs)
      constructor
      · intro i hi
        have hslot := specDequeG_live N (0 : WithBot ℚ)
          (fun q => (q : WithBot ℚ)) hN (x :: rs) i hi
        have hsl : ((x :: rs).length - 1 - i) % N < N := Nat.mod_lt _ (by omega)
        have h1 : (maxRunRev N (x :: rs)).deque (((x :: rs).length - 1 - i) % N)
            = (((x :: rs).getD i 0 : ℚ) : WithBot ℚ) := by
          rw [hdeq _]; exact hslot
        have h2 := hdom _ hsl
        rw [h1] at h2
        rw [hout]
        exact h2
      · intro hlen
        refine ⟨((x :: rs).length - 1 - (maxRunRev N (x :: rs)).max_index) % N,
          Nat.mod_lt _ (by omega), ?_⟩
        have hcond : (maxRunRev N (x :: rs)).max_index < min (x :: rs).length N := by
          simp only [List.length_cons] at hlen ⊢
          omega
        rw [hout, hdeq _]
        unfold specDequeG
        rw [if_pos hcond]

/-- Witness for C5: `Maximum<2>` fed `1` then `3` (reversed `[3,1]`):
the output dominates the live value `3`, and equals a live value. -/
theorem max_output_dominates_live_w :
    ((([(3 : ℚ), 1].getD 0 0 : ℚ)) : WithBot ℚ) ≤ maxLastOut 2 [3, 1] :=
  (max_output_dominates_live 2 [3, 1] (by omega)).1 0 (by decide)

/-- C7: displacement policy of `Maximum::next`.  With the window value
at `best_index` unchanged by the write (`max_index ≠ cur_index`): an
equal pushed value never displaces the recorded extremum, a strictly
greater one displaces it to the cursor.  When the slot being
overwritten is the tracked `best_index`, the rescan chooses the first
(lowest) slot achieving the maximum of the current buffer contents. -/
theorem max_step_displacement (N : ℕ) (s : MaxState) (x : ℚ) :
    (s.max_index ≠ s.cur_index → (x : WithBot ℚ) = s.deque s.max_index →
        (maxStep N s x).1.max_index = s.max_index)
    ∧ (s.max_index ≠ s.cur_index → s.deque s.max_index < (x : WithBot ℚ) →
        (maxStep N s x).1.max_index = s.cur_index)
    ∧ (s.max_index = s.cur_index →
        (maxStep N s x).1.max_index = findMaxIndex N ((maxStep N s x).1.deque)
        ∧ (∀ j, j < N → (maxStep N s x).1.deque j
            ≤ (maxStep N s x).1.deque ((maxStep N s x).1.max_index))
        ∧ (∀ j, j < (maxStep N s x).1.max_index →
            (maxStep N s x).1.deque j
              < (maxStep N s x).1.deque ((maxStep N s x).1.max_index))) := by
  refine ⟨?_, ?_, ?_⟩
  · intro hne heq
    show maxSel N s x = s.max_index
    unfold maxSel
    have hmu : maxUpd s x s.max_index = s.deque s.max_index := by
      unfold maxUpd; rw [if_neg hne]
    rw [hmu, ← heq, if_neg (lt_irrefl _), if_neg hne]
  · intro hne hlt
    show maxSel N s x = s.cur_index
    unfold maxSel
    have hmu : maxUpd s x s.max_index = s.deque s.max_index := by
      unfold maxUpd; rw [if_neg hne]
    rw [hmu, if_pos hlt]
  · intro hmc
    have hmu : maxUpd s x s.max_index = (x : WithBot ℚ) := by
      unfold maxUpd; rw [if_pos hmc]
    have hsel : maxSel N s x = findMaxIndex N (maxUpd s x) := by
      unfold maxSel
      rw [hmu, if_neg (lt_irrefl _), if_pos hmc]
    refine ⟨hsel, ?_, ?_⟩
    · intro j hj
      show maxUpd s x j ≤ maxUpd s x (maxSel N s x)
      rw [hsel]
      exact findMaxIndex_le N _ j hj
    · intro j hj
      have hj2 : j < findMaxIndex N (maxUpd s x) := by
        have hrw : (maxStep N s x).1.max_index = maxSel N s x := rfl
        rw [hrw, hsel] at hj
        exact hj
      show maxUpd s x j < maxUpd s x (maxSel N s x)
      rw [hsel]
      exact findMaxIndex_first N _ j hj2

/-- Witness for C7: a `Maximum<2>` state with `max_index = 1` holding
`5`, cursor `0`: pushing an equal `5` keeps `max_index = 1`; pushing
`7` displaces it to the cursor `0`; and from a fresh state (where
`max_index = cur_index`) the rescan is taken. -/
theorem max_step_displacement_w :
    (maxStep 2 (MaxState.mk 1 0
        (fun i => if i = 1 then ((5 : ℚ) : WithBot ℚ) else ((0 : ℚ) : WithBot ℚ)))
        5).1.max_index = 1
    ∧ (maxStep 2 (MaxState.mk 1 0
        (fun i => if i = 1 then ((5 : ℚ) : WithBot ℚ) else ((0 : ℚ) : WithBot ℚ)))
        7).1.max_index = 0
    ∧ (maxStep 2 maxInit 5).1.max_index
        = findMaxIndex 2 ((maxStep 2 maxInit 5).1.deque) :=
  ⟨(max_step_displacement 2 _ 5).1 (by decide) (by decide),
   (max_step_displacement 2 _ 7).2.1 (by decide) (by decide),
   ((max_step_displacement 2 maxInit 5).2.2 rfl).1⟩

/-- C3 counterexample: `Maximum::<0>::new()` succeeds (there is no
construction-time validation in the source), and the very first push on
the constructed instance fails at runtime: `self.deque[self.cur_index]`
indexes an empty array.  This contradicts the claim that no push on a
constructible instance can fail at runtime because of a non-positive
window size. -/
theorem max_zero_window_push_fails : maxStepChecked 0 maxInit 5 = none := rfl

/-- C3 (amended): construction never fails for any `N` (it is
unchecked); a push fails at runtime exactly when an index is out of
range, which the first push does when `N = 0`; for `N ≥ 1` and in-range
indices (as established by construction and preserved by every push) a
push never fails and keeps the indices in range. -/
theorem max_push_safe (N : ℕ) (s : MaxState) (x : ℚ) (hN : 1 ≤ N)
    (hc : s.cur_index < N) (hm : s.max_index < N) :
    maxStepChecked N s x = some (maxStep N s x)
    ∧ (maxStep N s x).1.cur_index < N
    ∧ (maxStep N s x).1.max_index < N := by
  refine ⟨?_, ?_, ?_⟩
  · unfold maxStepChecked
    rw [if_pos ⟨hc, hm⟩]
  · exact advanceIdx_lt N _ hN
  · show maxSel N s x < N
    unfold maxSel
    by_cases h1 : (x : WithBot ℚ) > maxUpd s x s.max_index
    · rw [if_pos h1]; exact hc
    · rw [if_neg h1]
      by_cases h2 : s.max_index = s.cur_index
      · rw [if_pos h2]; exact findMaxIndex_lt N _ (by omega)
      · rw [if_neg h2]; exact hm

/-- Witness for C3 (amended) at `N = 1` on the fresh state. -/
theorem max_push_safe_w :
    maxStepChecked 1 maxInit 0 = some (maxStep 1 maxInit 0) :=
  (max_push_safe 1 maxInit 0 (by decide) (by decide) (by decide)).1

/-! ## C2: reset/replay -/

theorem smaOutputs_eqv (N : ℕ) (hN : 1 ≤ N) :
    ∀ (xs : List ℚ) (s t : SmaState),
      s.index = t.index → s.count = t.count → s.sum = t.sum → s.index < N →
      (∀ j, j < N → s.deque j = t.deque j) →
      smaOutputs N s xs = smaOutputs N t xs := by
  intro xs
  induction xs with
  | nil => intro s t _ _ _ _ _; rfl
  | cons x xs ih =>
      intro s t hidx hcnt hsum hlt hdeq
      have hdi : s.deque s.index = t.deque t.index := by
        rw [← hidx]; exact hdeq _ hlt
      simp only [smaOutputs]
      have hout : (smaStep N s x).2 = (smaStep N t x).2 := by
        unfold smaStep
        dsimp only
        rw [hsum, hdi, hcnt]
      rw [hout]
      congr 1
      apply ih
      · show advanceIdx N s.index = advanceIdx N t.index
        rw [hidx]
      · show (if s.count < N then s.count + 1 else s.count)
            = (if t.count < N then t.count + 1 else t.count)
        rw [hcnt]
      · show s.sum - s.deque s.index + x = t.sum - t.deque t.index + x
        rw [hsum, hdi]
      · exact advanceIdx_lt N _ hN
      · intro j hj
        show (if j = s.index then x else s.deque j)
            = (if j = t.index then x else t.deque j)
        rw [hidx]
        by_cases hje : j = t.index
        · rw [if_pos hje, if_pos hje]
        · rw [if_neg hje, if_neg hje]
          exact hdeq j hj

/-- C2 counterexample: for `Maximum<2>` the claim fails even with an
empty prior stream: the constructor zero-fills the buffer while
`reset` fills it with `-∞`, so replaying `[-1]` after `reset` returns
`-1` while a fresh instance returns the `0.0` placeholder. -/
theorem max_reset_breaks_replay :
    maxOutputs 2 (maxReset 2 maxInit) [(-1 : ℚ)]
      ≠ maxOutputs 2 maxInit [(-1 : ℚ)] := by
  decide

/-- C2 (amended): for `SimpleMovingAverage<N>` (`N ≥ 1`), `reset()`
from any state followed by replaying any prefix of ticks reproduces
exactly the outputs of a freshly constructed instance.  For `Maximum`
the property fails (see the counterexample): its constructor zero-fills
the buffer while `reset` writes `-∞` sentinels and leaves the cursor
and tracked index unchanged. -/
theorem sma_reset_replay (N : ℕ) (hN : 1 ≤ N) (s : SmaState) (xs : List ℚ) :
    smaOutputs N (smaReset N s) xs = smaOutputs N smaInit xs := by
  apply smaOutputs_eqv N hN xs
  · rfl
  · rfl
  · rfl
  · show (0 : ℕ) < N; omega
  · intro j hj
    show (if j < N then (0 : ℚ) else s.deque j) = 0
    rw [if_pos hj]

/-- Witness for C2 (amended): `N = 3`, one replayed tick. -/
theorem sma_reset_replay_w :
    smaOutputs 3 (smaReset 3 smaInit) [2] = smaOutputs 3 smaInit [2] :=
  sma_reset_replay 3 (by omega) smaInit [2]


/-! ## MoneyFlowIndex: invariant and claims C4, C8 -/

theorem typicalPrice_nonneg (b : Bar) (h : WellFormedBar b) :
    0 ≤ typicalPrice b := by
  obtain ⟨h1, h2, h3, h4⟩ := h
  unfold typicalPrice
  have hsum : 0 ≤ b.close + b.high + b.low := by linarith
  exact div_nonneg hsum (by norm_num)

theorem mfiFinish_state (idx cnt : ℕ) (tp : ℚ) (pns : ℚ × ℚ × ℚ) (d : ℕ → ℚ) :
    (mfiFinish idx cnt tp pns d).1
      = ⟨idx, cnt, tp, pns.1, pns.2.1, fun i => if i = idx then pns.2.2 else d i⟩ :=
  rfl

theorem mfiFinish_out (idx cnt : ℕ) (tp : ℚ) (pns : ℚ × ℚ × ℚ) (d : ℕ → ℚ) :
    (mfiFinish idx cnt tp pns d).2
      = if pns.1 + pns.2.1 = 0 then none
        else some (pns.1 / (pns.1 + pns.2.1) * 100) :=
  rfl

theorem sum_update_posPart (N idx : ℕ) (hidx : idx < N) (d : ℕ → ℚ) (v : ℚ) :
    Finset.sum (Finset.range N) (fun i => max (if i = idx then v else d i) 0)
      = Finset.sum (Finset.range N) (fun i => max (d i) 0) - max (d idx) 0 + max v 0 := by
  have hmem : idx ∈ Finset.range N := Finset.mem_range.mpr hidx
  rw [← Finset.sum_erase_add _ _ hmem,
      ← Finset.sum_erase_add (Finset.range N) (fun i => max (d i) 0) hmem]
  have hcong : Finset.sum ((Finset.range N).erase idx)
      (fun i => max (if i = idx then v else d i) 0)
      = Finset.sum ((Finset.range N).erase idx) (fun i => max (d i) 0) := by
    apply Finset.sum_congr rfl
    intro i hi
    rw [if_neg (Finset.ne_of_mem_erase hi)]
  rw [hcong]
  rw [if_pos rfl]
  ring

theorem sum_update_negPart (N idx : ℕ) (hidx : idx < N) (d : ℕ → ℚ) (v : ℚ) :
    Finset.sum (Finset.range N) (fun i => max (-(if i = idx then v else d i)) 0)
      = Finset.sum (Finset.range N) (fun i => max (-(d i)) 0)
        - max (-(d idx)) 0 + max (-v) 0 := by
  have hmem : idx ∈ Finset.range N := Finset.mem_range.mpr hidx
  rw [← Finset.sum_erase_add _ _ hmem,
      ← Finset.sum_erase_add (Finset.range N) (fun i => max (-(d i)) 0) hmem]
  have hcong : Finset.sum ((Finset.range N).erase idx)
      (fun i => max (-(if i = idx then v else d i)) 0)
      = Finset.sum ((Finset.range N).erase idx) (fun i => max (-(d i)) 0) := by
    apply Finset.sum_congr rfl
    intro i hi
    rw [if_neg (Finset.ne_of_mem_erase hi)]
  rw [hcong]
  rw [if_pos rfl]
  ring

theorem mfiEvict_sums (N idx : ℕ) (s : MfiState)
    (hpos : s.pos = Finset.sum (Finset.range N) (fun i => max (s.deque i) 0))
    (hneg : s.neg = Finset.sum (Finset.range N) (fun i => max (-(s.deque i)) 0)) :
    (mfiEvict s idx).1
      = Finset.sum (Finset.range N) (fun i => max (s.deque i) 0)
        - max (s.deque idx) 0
    ∧ (mfiEvict s idx).2
      = Finset.sum (Finset.range N) (fun i => max (-(s.deque i)) 0)
        - max (-(s.deque idx)) 0 := by
  unfold mfiEvict
  by_cases hc : 0 ≤ s.deque idx
  · rw [if_pos hc]
    constructor
    · show s.pos - s.deque idx = _
      rw [hpos, max_eq_left hc]
    · show s.neg = _
      rw [hneg, max_eq_right (by linarith : -(s.deque idx) ≤ 0)]
      ring
  · rw [if_neg hc]
    constructor
    · show s.pos = _
      rw [hpos, max_eq_right (by linarith : s.deque idx ≤ 0)]
      ring
    · show s.neg + s.deque idx = _
      rw [hneg, max_eq_left (by linarith : (0 : ℚ) ≤ -(s.deque idx))]
      ring

theorem ratio_in_range (p q : ℚ) (hp : 0 ≤ p) (hq : 0 ≤ q) (hne : p + q ≠ 0) :
    0 ≤ p / (p + q) * 100 ∧ p / (p + q) * 100 ≤ 100 := by
  have hd : 0 < p + q := lt_of_le_of_ne (by linarith) (Ne.symm hne)
  constructor
  · exact mul_nonneg (div_nonneg hp (le_of_lt hd)) (by norm_num)
  · have h1 : p / (p + q) ≤ 1 := (div_le_one hd).mpr (by linarith)
    calc p / (p + q) * 100 ≤ 1 * 100 :=
          mul_le_mul_of_nonneg_right h1 (by norm_num)
      _ = 100 := by norm_num

theorem mfiFinishFlow_inv (N idx cnt : ℕ) (hidxN : idx < N) (tp prev raw : ℚ)
    (hraw : 0 ≤ raw) (d : ℕ → ℚ) (P Q : ℚ)
    (hP : P = Finset.sum (Finset.range N) (fun i => max (d i) 0) - max (d idx) 0)
    (hQ : Q = Finset.sum (Finset.range N) (fun i => max (-(d i)) 0)
        - max (-(d idx)) 0) :
    MfiSums N (mfiFinish idx cnt tp (mfiFlow prev tp raw P Q) d).1
    ∧ MfiOutOk (mfiFinish idx cnt tp (mfiFlow prev tp raw P Q) d).2 := by
  have key : (mfiFlow prev tp raw P Q).1
        = Finset.sum (Finset.range N)
            (fun i => max (if i = idx then (mfiFlow prev tp raw P Q).2.2 else d i) 0)
      ∧ (mfiFlow prev tp raw P Q).2.1
        = Finset.sum (Finset.range N)
            (fun i => max (-(if i = idx then (mfiFlow prev tp raw P Q).2.2 else d i)) 0) := by
    unfold mfiFlow
    by_cases h1 : prev < tp
    · rw [if_pos h1]
      dsimp only
      constructor
      · rw [sum_update_posPart N idx hidxN d raw, hP, max_eq_left hraw]
      · rw [sum_update_negPart N idx hidxN d raw, hQ,
            max_eq_right (neg_nonpos.mpr hraw)]
        ring
    · rw [if_neg h1]
      by_cases h2 : tp < prev
      · rw [if_pos h2]
        dsimp only
        constructor
        · rw [sum_update_posPart N idx hidxN d (-raw), hP,
              max_eq_right (neg_nonpos.mpr hraw)]
          ring
        · rw [sum_update_negPart N idx hidxN d (-raw), hQ, neg_neg,
              max_eq_left hraw]
      · rw [if_neg h2]
        dsimp only
        constructor
        · rw [sum_update_posPart N idx hidxN d 0, hP]
          simp
        · rw [sum_update_negPart N idx hidxN d 0, hQ]
          simp
  refine ⟨⟨?_, ?_⟩, ?_⟩
  · exact key.1
  · exact key.2
  · rw [mfiFinish_out]
    by_cases hz : (mfiFlow prev tp raw P Q).1 + (mfiFlow prev tp raw P Q).2.1 = 0
    · rw [if_pos hz]; left; rfl
    · rw [if_neg hz]
      right
      have hp : 0 ≤ (mfiFlow prev tp raw P Q).1 := by
        rw [key.1]; exact Finset.sum_nonneg fun i _ => le_max_right _ _
      have hq : 0 ≤ (mfiFlow prev tp raw P Q).2.1 := by
        rw [key.2]; exact Finset.sum_nonneg fun i _ => le_max_right _ _
      obtain ⟨hr1, hr2⟩ := ratio_in_range _ _ hp hq hz
      exact ⟨_, rfl, hr1, hr2⟩

theorem mfiStep_inv (N : ℕ) (hN : 1 ≤ N) (s : MfiState) (b : Bar)
    (hb : WellFormedBar b) (h : MfiInv N s) :
    MfiInv N (mfiStep N s b).1 ∧ MfiOutOk (mfiStep N s b).2 := by
  obtain ⟨⟨hpos, hneg⟩, hidx, hcnt, hwarm⟩ := h
  have htp : 0 ≤ typicalPrice b := typicalPrice_nonneg b hb
  have hraw : 0 ≤ typicalPrice b * b.volume := mul_nonneg htp hb.2.2.2
  have hadv : advanceIdx N s.index < N := advanceIdx_lt N _ hN
  by_cases h0 : s.count = 0
  · have hstep : mfiStep N s b
        = (⟨advanceIdx N s.index, 1, typicalPrice b, s.pos, s.neg, s.deque⟩,
           some 50) := by
      unfold mfiStep; rw [if_pos ⟨h0, by omega⟩]
    rw [hstep]
    refine ⟨⟨⟨hpos, hneg⟩, hadv, ?_, ?_⟩, ?_⟩
    · show (1 : ℕ) ≤ N; omega
    · intro h1N
      have h1N2 : 1 < N := h1N
      obtain ⟨hie, hz⟩ := hwarm (by omega)
      constructor
      · show advanceIdx N s.index = 1
        rw [hie, h0]
        unfold advanceIdx
        rw [if_pos (by omega)]
      · intro j hj
        apply hz
        rcases hj with hc | hc
        · left; exact hc
        · right
          have hc2 : 1 < j := hc
          omega
    · right
      exact ⟨50, rfl, by norm_num, by norm_num⟩
  · have hstep : mfiStep N s b = mfiStepGo N s b := by
      unfold mfiStep
      rw [if_neg (fun hc => h0 hc.1)]
    have hPQ : (if s.count < N then s.pos
            else (mfiEvict s (advanceIdx N s.index)).1)
          = Finset.sum (Finset.range N) (fun i => max (s.deque i) 0)
            - max (s.deque (advanceIdx N s.index)) 0
        ∧ (if s.count < N then s.neg
            else (mfiEvict s (advanceIdx N s.index)).2)
          = Finset.sum (Finset.range N) (fun i => max (-(s.deque i)) 0)
            - max (-(s.deque (advanceIdx N s.index))) 0 := by
      by_cases hw : s.count < N
      · have hdidx : s.deque (advanceIdx N s.index) = 0 := by
          obtain ⟨hie, hz⟩ := hwarm hw
          apply hz
          rw [hie]
          unfold advanceIdx
          by_cases hc : s.count + 1 < N
          · rw [if_pos hc]; right; omega
          · rw [if_neg hc]; left; omega
        rw [if_pos hw, if_pos hw, hdidx]
        constructor
        · rw [hpos]; simp
        · rw [hneg]; simp
      · rw [if_neg hw, if_neg hw]
        exact mfiEvict_sums N (advanceIdx N s.index) s hpos hneg
    obtain ⟨hP0, hQ0⟩ := hPQ
    have hgo : mfiStepGo N s b
        = mfiFinish (advanceIdx N s.index)
            (if s.count < N then s.count + 1 else s.count)
            (typicalPrice b)
            (mfiFlow s.prev_tp (typicalPrice b) (typicalPrice b * b.volume)
              (if s.count < N then s.pos
                else (mfiEvict s (advanceIdx N s.index)).1)
              (if s.count < N then s.neg
                else (mfiEvict s (advanceIdx N s.index)).2))
            s.deque := rfl
    have hshape : ∀ (pns : ℚ × ℚ × ℚ),
        MfiShape N (mfiFinish (advanceIdx N s.index)
          (if s.count < N then s.count + 1 else s.count)
          (typicalPrice b) pns s.deque).1 := by
      intro pns
      rw [mfiFinish_state]
      unfold MfiShape
      dsimp only
      by_cases hw : s.count < N
      · rw [if_pos hw]
        obtain ⟨hie, hz⟩ := hwarm hw
        refine ⟨hadv, by omega, ?_⟩
        intro hc2
        have hadvv : advanceIdx N s.index = s.count + 1 := by
          rw [hie]; unfold advanceIdx; rw [if_pos (by omega)]
        refine ⟨hadvv, ?_⟩
        intro j hj
        have hjne : j ≠ advanceIdx N s.index := by
          rw [hadvv]
          rcases hj with hc | hc <;> omega
        rw [if_neg hjne]
        apply hz
        rcases hj with hc | hc
        · left; exact hc
        · right; omega
      · rw [if_neg hw]
        refine ⟨hadv, by omega, ?_⟩
        intro hc2
        exact absurd hc2 hw
    obtain ⟨hsums, hout⟩ := mfiFinishFlow_inv N (advanceIdx N s.index)
      (if s.count < N then s.count + 1 else s.count) hadv
      (typicalPrice b) s.prev_tp (typicalPrice b * b.volume) hraw s.deque
      _ _ hP0 hQ0
    rw [hstep, hgo]
    exact ⟨⟨hsums, hshape _⟩, hout⟩

theorem mfiInit_inv (N : ℕ) (hN : 1 ≤ N) : MfiInv N mfiInit := by
  refine ⟨⟨?_, ?_⟩, ?_, ?_, ?_⟩
  · show (0 : ℚ) = Finset.sum (Finset.range N) (fun i => max ((0 : ℚ)) 0)
    simp
  · show (0 : ℚ) = Finset.sum (Finset.range N) (fun i => max (-(0 : ℚ)) 0)
    simp
  · show (0 : ℕ) < N; omega
  · show (0 : ℕ) ≤ N; omega
  · intro hw
    exact ⟨rfl, fun j hj => rfl⟩

theorem mfiOutputs_ok (N : ℕ) (hN : 1 ≤ N) :
    ∀ (bars : List Bar) (s : MfiState), MfiInv N s →
      (∀ b ∈ bars, WellFormedBar b) →
      ∀ o ∈ mfiOutputs N s bars, MfiOutOk o := by
  intro bars
  induction bars with
  | nil =>
      intro s _ _ o ho
      simp [mfiOutputs] at ho
  | cons b l ih =>
      intro s hinv hwf o ho
      simp only [mfiOutputs, List.mem_cons] at ho
      obtain ⟨hinv2, hok⟩ := mfiStep_inv N hN s b (hwf b (by simp)) hinv
      rcases ho with ho | ho
      · rw [ho]; exact hok
      · exact ih (mfiStep N s b).1 hinv2 (fun x hx => hwf x (by simp [hx])) o ho

/-- C4 counterexample: feeding `MoneyFlowIndex<3>` two well-formed bars
with equal typical price makes both running totals zero on the second
tick: the source then computes `0.0 / 0.0` (`NaN`, modelled `none`) —
there is no sentinel, and the output is not a number in `[0, 100]`. -/
theorem mfi_unguarded_division :
    mfiOutputs 3 mfiInit [Bar.mk 3 1 2 500, Bar.mk 3 1 2 500]
      = [some 50, none] := by
  norm_num [mfiOutputs, mfiStep, mfiStepGo, mfiFinish, mfiFlow, mfiEvict,
    mfiInit, typicalPrice, advanceIdx]

/-- C4 (amended): for `MoneyFlowIndex<N>` (`N ≥ 1`), the first tick of
any stream returns exactly `50`, and on well-formed observations every
output is either a number in `[0, 100]` or the unguarded
division-by-zero `NaN` (`none`), which occurs exactly when both running
totals are zero.  (The claim's assertion that the degenerate case
yields a sentinel instead of a division failure is false, see the
counterexample.) -/
theorem mfi_output_range (N : ℕ) (hN : 1 ≤ N) (bars : List Bar)
    (hwf : ∀ b ∈ bars, WellFormedBar b) :
    (∀ b : Bar, (mfiStep N mfiInit b).2 = some 50)
    ∧ ∀ o ∈ mfiOutputs N mfiInit bars, MfiOutOk o := by
  constructor
  · intro b
    have hc : mfiInit.count = 0 ∧ mfiInit.count < N :=
      ⟨rfl, show (0 : ℕ) < N by omega⟩
    unfold mfiStep
    rw [if_pos hc]
  · exact mfiOutputs_ok N hN bars mfiInit (mfiInit_inv N hN) hwf

/-- Witness for C4 (amended): the first tick on an arbitrary bar is 50,
with the hypotheses discharged at `N = 3` and one well-formed bar. -/
theorem mfi_output_range_w :
    (mfiStep 3 mfiInit (Bar.mk 9 7 8 200)).2 = some 50 :=
  (mfi_output_range 3 (by omega) [Bar.mk 3 1 2 500] (by decide)).1
    (Bar.mk 9 7 8 200)

/-- C8: both `MoneyFlowIndex` running totals are nonnegative after
construction, after any stream of well-formed observations, and after
`reset`. -/
theorem mfi_totals_nonneg (N : ℕ) (hN : 1 ≤ N) (s : MfiState)
    (bars : List Bar) (hwf : ∀ b ∈ bars, WellFormedBar b) :
    (0 ≤ mfiInit.pos ∧ 0 ≤ mfiInit.neg)
    ∧ (0 ≤ (mfiRun N mfiInit bars).pos ∧ 0 ≤ (mfiRun N mfiInit bars).neg)
    ∧ (0 ≤ (mfiReset N s).pos ∧ 0 ≤ (mfiReset N s).neg) := by
  have hrun : ∀ (l : List Bar) (t : MfiState), MfiInv N t →
      (∀ b ∈ l, WellFormedBar b) → MfiInv N (mfiRun N t l) := by
    intro l
    induction l with
    | nil => intro t ht _; exact ht
    | cons b l ih =>
        intro t ht hw
        exact ih _ (mfiStep_inv N hN t b (hw b (by simp)) ht).1
          (fun x hx => hw x (by simp [hx]))
  obtain ⟨⟨hpos2, hneg2⟩, _⟩ := hrun bars mfiInit (mfiInit_inv N hN) hwf
  refine ⟨⟨le_refl 0, le_refl 0⟩, ⟨?_, ?_⟩, ⟨le_refl 0, le_refl 0⟩⟩
  · rw [hpos2]; exact Finset.sum_nonneg fun i _ => le_max_right _ _
  · rw [hneg2]; exact Finset.sum_nonneg fun i _ => le_max_right _ _

/-- Witness for C8 at `N = 3` with one well-formed bar. -/
theorem mfi_totals_nonneg_w :
    0 ≤ (mfiRun 3 mfiInit [Bar.mk 3 1 2 500]).pos :=
  ((mfi_totals_nonneg 3 (by omega) mfiInit [Bar.mk 3 1 2 500]
    (by decide)).2).1.1


/-! ## ExponentialMovingAverage: C6 -/

theorem ema_run_spec :
    ∀ (xs : List ℚ) (s : EmaState), s.is_new = false →
      emaOutputs s xs = emaSpecOutputs s.k s.current xs := by
  intro xs
  induction xs with
  | nil => intro s _; rfl
  | cons y xs ih =>
      intro s h
      have hstep : emaStep s y
          = (⟨s.k, s.k * y + (1 - s.k) * s.current, false⟩,
             s.k * y + (1 - s.k) * s.current) := by
        unfold emaStep
        rw [if_neg (by simp [h])]
      simp only [emaOutputs, emaSpecOutputs, hstep]
      congr 1
      exact ih _ rfl

/-- C6: for the `ExponentialMovingAverage<N>`, the smoothing constant
is `k = 2 / (N + 1)`; the first push after construction returns exactly
the input; and each subsequent output obeys
`out = k * input + (1 - k) * previous_output` (captured by
`emaSpecOutputs`, the recurrence written from the spec, threaded on the
previously returned value). -/
theorem ema_first_and_recurrence (N : ℕ) (x : ℚ) (xs : List ℚ) :
    (emaInit N).k = 2 / ((N : ℚ) + 1)
    ∧ emaOutputs (emaInit N) (x :: xs)
        = x :: emaSpecOutputs (2 / ((N : ℚ) + 1)) x xs := by
  constructor
  · rfl
  · have hstep : emaStep (emaInit N) x = (⟨(emaInit N).k, x, false⟩, x) := rfl
    simp only [emaOutputs, hstep]
    congr 1
    exact ema_run_spec xs _ rfl

/-! ## RelativeStrengthIndex: C10 -/

/-- C10: the first call of `RelativeStrengthIndex::next` on a freshly
constructed instance, or on any instance just after `reset`, returns
exactly `50`, for every input `x`: both internal EMAs are seeded with
the equal values `0.1`, so the output is `100 · 0.1 / (0.1 + 0.1)`. -/
theorem rsi_first_output_fifty (N : ℕ) (x : ℚ) (s : RsiState) :
    (rsiStep (rsiInit N) x).2 = 50 ∧ (rsiStep (rsiReset s) x).2 = 50 := by
  constructor
  · have h1 : (rsiStep (rsiInit N) x).2
        = 100 * ((1 : ℚ) / 10) / ((1 : ℚ) / 10 + (1 : ℚ) / 10) := rfl
    rw [h1]; norm_num
  · have h2 : (rsiStep (rsiReset s) x).2
        = 100 * ((1 : ℚ) / 10) / ((1 : ℚ) / 10 + (1 : ℚ) / 10) := rfl
    rw [h2]; norm_num

/-! ## EfficiencyRatio: C9 -/

/-- C9: a fresh `EfficiencyRatio<4>` fed `10, 13, 12, 13, 18, 19`
returns exactly `1, 1, 0.5, 0.6, 0.8, 0.75` (the doc-test of the
source file). -/
theorem er_example_values :
    erOutputs 4 (erInit 4) [10, 13, 12, 13, 18, 19]
      = [1, 1, 0.5, 0.6, 0.8, 0.75] := by
  norm_num [erOutputs, erStep, erInit, volFold, advanceIdx]

end TaRs
